import Mathlib

/-!
Verification of the MP4/QuickTime metadata engine (mutagenx/mp4.py).

The Python source is shallowly embedded: bytes become `Nat` values (each in
[0, 256) on well-formed input), byte strings become `List Nat`, Python slices
`data[a:b]` become `(data.drop a).take b - a` (both clamp the same way),
file contents become `List Nat` with explicit read/write splicing, and
exceptions become `Except MPErr`.  Recursive loops whose Python counterparts
can diverge (a sub-atom whose declared size is 0) take an explicit fuel
argument; exhausting the fuel yields the artificial error `MPErr.fuelOut`,
which well-formed inputs with sufficient fuel never produce.
-/

deriving instance DecidableEq for Except

/-- Errors raised by the embedded engine.  `malformedBox` models
`MP4MetadataError` for size/structure violations during parse, `structError`
models Python `struct.error` (a short read handed to `struct.unpack`),
`keyError` models `KeyError` from atom-tree lookup, and the remaining
constructors model the per-tag error taxonomy. -/
inductive MPErr where
  | malformedBox
  | structError
  | unexpectedAtom
  | unsupportedVersion
  | invalidValue
  | keyError
  | noAudioTrack
  | fuelOut
  deriving DecidableEq, Repr

/-- Big-endian decode of the first two bytes (Python `struct.unpack(">H", ·)`,
returning 0 on a short list where Python would raise). -/
def ru16 : List Nat → Nat
  | a :: b :: _ => a * 256 + b
  | _ => 0

/-- Big-endian decode of the first four bytes (`struct.unpack(">I", ·)` /
`cdata.uint_be`). -/
def ru32 : List Nat → Nat
  | a :: b :: c :: d :: _ => ((a * 256 + b) * 256 + c) * 256 + d
  | _ => 0

/-- Big-endian decode of the first eight bytes (`struct.unpack(">Q", ·)` /
`cdata.ulonglong_be`). -/
def ru64 : List Nat → Nat
  | a :: b :: c :: d :: e :: f :: g :: h :: _ =>
    ((((((a * 256 + b) * 256 + c) * 256 + d) * 256 + e) * 256 + f) * 256 + g) * 256 + h
  | _ => 0

/-- Big-endian two-byte encoding (`struct.pack(">H", n)`). -/
def u16BE (n : Nat) : List Nat := [n / 256 % 256, n % 256]

/-- Big-endian four-byte encoding (`struct.pack(">I", n)`). -/
def u32BE (n : Nat) : List Nat :=
  [n / 16777216 % 256, n / 65536 % 256, n / 256 % 256, n % 256]

/-- Big-endian eight-byte encoding (`struct.pack(">Q", n)`). -/
def u64BE (n : Nat) : List Nat :=
  [n / 72057594037927936 % 256, n / 281474976710656 % 256, n / 1099511627776 % 256,
   n / 4294967296 % 256, n / 16777216 % 256, n / 65536 % 256, n / 256 % 256, n % 256]

theorem u16BE_length (n : Nat) : (u16BE n).length = 2 := rfl

theorem u32BE_length (n : Nat) : (u32BE n).length = 4 := rfl

theorem u64BE_length (n : Nat) : (u64BE n).length = 8 := rfl

theorem ru16_u16BE_append (n : Nat) (r : List Nat) (h : n < 65536) :
    ru16 (u16BE n ++ r) = n := by
  simp only [u16BE, List.cons_append, List.nil_append, ru16]
  omega

theorem ru32_u32BE_append (n : Nat) (r : List Nat) (h : n < 4294967296) :
    ru32 (u32BE n ++ r) = n := by
  simp only [u32BE, List.cons_append, List.nil_append, ru32]
  omega

theorem ru64_u64BE_append (n : Nat) (r : List Nat) (h : n < 18446744073709551616) :
    ru64 (u64BE n ++ r) = n := by
  simp only [u64BE, List.cons_append, List.nil_append, ru64]
  omega

/-- Re-encoding a decode is the identity on four valid bytes. -/
theorem u32BE_ru32 (a b c d : Nat) (r : List Nat)
    (ha : a < 256) (hb : b < 256) (hc : c < 256) (hd : d < 256) :
    u32BE (ru32 (a :: b :: c :: d :: r)) = [a, b, c, d] := by
  simp only [ru32, u32BE, List.cons.injEq, and_true]
  refine ⟨?_, ?_, ?_, ?_⟩ <;> omega

/-- Re-encoding a decode is the identity on eight valid bytes. -/
theorem u64BE_ru64 (a b c d e f g h : Nat) (r : List Nat)
    (ha : a < 256) (hb : b < 256) (hc : c < 256) (hd : d < 256)
    (he : e < 256) (hf : f < 256) (hg : g < 256) (hh : h < 256) :
    u64BE (ru64 (a :: b :: c :: d :: e :: f :: g :: h :: r)) = [a, b, c, d, e, f, g, h] := by
  simp only [ru64, u64BE, List.cons.injEq, and_true]
  refine ⟨?_, ?_, ?_, ?_, ?_, ?_, ?_, ?_⟩ <;> omega

/-! FourCC byte strings used by the module. -/

def moovName : List Nat := [109, 111, 111, 118]
def udtaName : List Nat := [117, 100, 116, 97]
def trakName : List Nat := [116, 114, 97, 107]
def mdiaName : List Nat := [109, 100, 105, 97]
def metaName : List Nat := [109, 101, 116, 97]
def ilstName : List Nat := [105, 108, 115, 116]
def stblName : List Nat := [115, 116, 98, 108]
def minfName : List Nat := [109, 105, 110, 102]
def moofName : List Nat := [109, 111, 111, 102]
def trafName : List Nat := [116, 114, 97, 102]
def freeName : List Nat := [102, 114, 101, 101]
def dataName : List Nat := [100, 97, 116, 97]
def nameFour : List Nat := [110, 97, 109, 101]
def hdlrName : List Nat := [104, 100, 108, 114]
def sounName : List Nat := [115, 111, 117, 110]
def trknName : List Nat := [116, 114, 107, 110]
def covrName : List Nat := [99, 111, 118, 114]
def gnreName : List Nat := [103, 110, 114, 101]
/-- The `©gen` key: 0xA9 followed by `gen`. -/
def genKey : List Nat := [169, 103, 101, 110]

/-- The container FourCC set `_CONTAINERS` of the module. -/
def containerNames : List (List Nat) :=
  [moovName, udtaName, trakName, mdiaName, metaName, ilstName,
   stblName, minfName, moofName, trafName]

/-- `Atom.render(name, data)`: the 32-bit size form when the total
`len(data) + 8` fits a u32, the extended form otherwise, whose u64 field
holds `size + 8 = len(data) + 16`. -/
def atomRender (name data : List Nat) : List Nat :=
  let size := data.length + 8
  if size ≤ 4294967295 then u32BE size ++ name ++ data
  else u32BE 1 ++ name ++ u64BE (size + 8) ++ data

/-- C6: `Atom.render` emits the 32-bit form `[size:u32 | name | payload]` with
`size = len(payload) + 8` exactly when `len(payload) + 8 ≤ 0xFFFFFFFF`, and
otherwise the extended form `[1:u32 | name | size:u64 | payload]` whose u64
field decodes to `len(payload) + 16`. -/
theorem atomRender_size_forms (name data : List Nat)
    (hn : name.length = 4) (h64 : data.length + 16 < 18446744073709551616) :
    (data.length + 8 ≤ 4294967295 →
      atomRender name data = u32BE (data.length + 8) ++ name ++ data ∧
      ru32 (atomRender name data) = data.length + 8) ∧
    (4294967295 < data.length + 8 →
      atomRender name data = u32BE 1 ++ name ++ u64BE (data.length + 16) ++ data ∧
      ru64 ((atomRender name data).drop 8) = data.length + 16) := by
  constructor
  · intro hle
    have hform : atomRender name data = u32BE (data.length + 8) ++ name ++ data := by
      simp only [atomRender, if_pos hle]
    refine ⟨hform, ?_⟩
    rw [hform, List.append_assoc, ru32_u32BE_append _ _ (by omega)]
  · intro hgt
    have hform : atomRender name data = u32BE 1 ++ name ++ u64BE (data.length + 16) ++ data := by
      have hc : ¬ (data.length + 8 ≤ 4294967295) := by omega
      simp only [atomRender, if_neg hc]
    refine ⟨hform, ?_⟩
    rw [hform]
    have hlen : (u32BE 1 ++ name).length = 8 := by
      simp [u32BE_length, hn]
    rw [List.append_assoc, List.append_assoc]
    rw [show (u32BE 1 ++ (name ++ (u64BE (data.length + 16) ++ data))) =
          (u32BE 1 ++ name) ++ (u64BE (data.length + 16) ++ data) by simp [List.append_assoc]]
    rw [show (8 : Nat) = (u32BE 1 ++ name).length by rw [hlen]]
    rw [List.drop_left]
    exact ru64_u64BE_append _ _ (by omega)

/-- Witness for C6 at a concrete name and payload. -/
theorem atomRender_size_forms_witness :
    atomRender freeName [7, 7] = u32BE 10 ++ freeName ++ [7, 7] ∧
    ru32 (atomRender freeName [7, 7]) = 10 :=
  (atomRender_size_forms freeName [7, 7] rfl (by norm_num)).1 (by norm_num)

/-! The box tree parser (`Atom.__init__`). -/

/-- A parsed box: `offset` is the absolute position of the size field,
`length` the resolved total length, `name` the FourCC, and `children` is
`some` exactly for the container FourCCs. -/
structure PAtom where
  offset : Nat
  length : Nat
  name : List Nat
  children : Option (List PAtom)

mutual

/-- `Atom.__init__(fileobj, level)`: reads the u32 size and 4-byte name at
`pos`; size 1 pulls the true length from the following u64; size 0 is legal
only at `level = 0`, where the box extends to end of file; sizes 2..7 raise
`MP4MetadataError`.  Containers recursively parse children (after the 4-byte
`meta` prefix) while the read position is below `offset + length`.  Returns
the atom and the resulting read position. -/
def parseA (fuel : Nat) (file : List Nat) (pos level : Nat) :
    Except MPErr (PAtom × Nat) :=
  match fuel with
  | 0 => .error .fuelOut
  | f + 1 =>
    let hdr := (file.drop pos).take 8
    if hdr.length ≠ 8 then .error .structError
    else
      let s := ru32 hdr
      let nm := hdr.drop 4
      let resolved : Except MPErr (Nat × Nat) :=
        if s = 1 then
          let ext := (file.drop (pos + 8)).take 8
          if ext.length = 8 then .ok (ru64 ext, 16) else .error .structError
        else if s = 0 then
          if level ≠ 0 then .error .malformedBox
          else .ok (file.length - pos, 8)
        else if s < 8 then .error .malformedBox
        else .ok (s, 8)
      match resolved with
      | .error e => .error e
      | .ok (length, hlen) =>
        if nm ∈ containerNames then
          let skip := if nm = metaName then 4 else 0
          match parseKids f file (pos + hlen + skip) (pos + length) (level + 1) with
          | .ok (kids, endPos) => .ok (⟨pos, length, nm, some kids⟩, endPos)
          | .error e => .error e
        else .ok (⟨pos, length, nm, none⟩, pos + length)

/-- The `while fileobj.tell() < self.offset + self.length` child loop of
`Atom.__init__`. -/
def parseKids (fuel : Nat) (file : List Nat) (pos endP level : Nat) :
    Except MPErr (List PAtom × Nat) :=
  match fuel with
  | 0 => if pos < endP then .error .fuelOut else .ok ([], pos)
  | f + 1 =>
    if pos < endP then
      match parseA f file pos level with
      | .error e => .error e
      | .ok (a, pos') =>
        match parseKids f file pos' endP level with
        | .error e => .error e
        | .ok (kids, e) => .ok (a :: kids, e)
    else .ok ([], pos)

end

theorem take8_length_le (file : List Nat) (pos : Nat)
    (h8 : ((file.drop pos).take 8).length = 8) : pos + 8 ≤ file.length := by
  simp only [List.length_take, List.length_drop] at h8
  omega

/-- C5: in `Atom.__init__`, a size field decoding to a value in {2..7} raises
`MP4MetadataError` at every nesting level; a size field of 0 raises at every
non-top level, while at top level the atom extends to end of file; a size
field of 1 makes the true length come from the following 64-bit field. -/
theorem parseA_size_field_cases (file : List Nat) (pos level f : Nat)
    (h8 : ((file.drop pos).take 8).length = 8) :
    (2 ≤ ru32 ((file.drop pos).take 8) → ru32 ((file.drop pos).take 8) < 8 →
      parseA (f + 1) file pos level = .error .malformedBox) ∧
    (ru32 ((file.drop pos).take 8) = 0 → level ≠ 0 →
      parseA (f + 1) file pos level = .error .malformedBox) ∧
    (ru32 ((file.drop pos).take 8) = 0 → level = 0 →
      ((file.drop pos).take 8).drop 4 ∉ containerNames →
      parseA (f + 1) file pos level =
        .ok (⟨pos, file.length - pos, ((file.drop pos).take 8).drop 4, none⟩, file.length)) ∧
    (ru32 ((file.drop pos).take 8) = 1 →
      ((file.drop (pos + 8)).take 8).length = 8 →
      ((file.drop pos).take 8).drop 4 ∉ containerNames →
      parseA (f + 1) file pos level =
        .ok (⟨pos, ru64 ((file.drop (pos + 8)).take 8), ((file.drop pos).take 8).drop 4, none⟩,
             pos + ru64 ((file.drop (pos + 8)).take 8))) := by
  have hpos := take8_length_le file pos h8
  refine ⟨?_, ?_, ?_, ?_⟩
  · intro hs1 hs2
    simp only [parseA, h8]
    rw [if_neg (by omega)]
    rw [if_neg (by omega), if_neg (by omega), if_pos hs2]
  · intro hs hl
    simp only [parseA, h8]
    rw [if_neg (by omega)]
    rw [if_neg (by omega), if_pos hs, if_pos hl]
  · intro hs hl hnc
    simp only [parseA, h8]
    rw [if_neg (by omega)]
    rw [if_neg (by omega), if_pos hs, if_neg (by simp [hl])]
    have hxy : pos + (file.length - pos) = file.length := by omega
    simp [hnc, hxy]
  · intro hs h16 hnc
    simp only [parseA, h8]
    rw [if_neg (by omega)]
    rw [if_pos hs, if_pos h16]
    simp [hnc]

/-- Witness for C5: a box claiming size 0 below top level is rejected. -/
theorem parseA_size_field_cases_witness :
    parseA 1 [0, 0, 0, 0, 102, 114, 101, 101] 0 1 = .error .malformedBox :=
  (parseA_size_field_cases [0, 0, 0, 0, 102, 114, 101, 101] 0 1 0 rfl).2.1 rfl
    (by decide)

/-! File contents as a byte list, with the read/write/splice primitives. -/

/-- `fileobj.seek(pos); fileobj.read(n)`. -/
def readBytesL (f : List Nat) (pos n : Nat) : List Nat := (f.drop pos).take n

/-- `fileobj.seek(pos); fileobj.write(bs)` (within the current file size). -/
def writeBytesL (f : List Nat) (pos : Nat) (bs : List Nat) : List Nat :=
  f.take pos ++ bs ++ f.drop (pos + bs.length)

/-- Modelled from the spec: `insert_bytes(file, n, at)` from `mutagenx._util`
(not under src/) grows the file by `n` zero bytes at offset `at`, preserving
and shifting the suffix. -/
def insertZeros (f : List Nat) (n pos : Nat) : List Nat :=
  f.take pos ++ List.replicate n 0 ++ f.drop pos

theorem writeBytesL_length (f bs : List Nat) (pos : Nat)
    (h : pos + bs.length ≤ f.length) : (writeBytesL f pos bs).length = f.length := by
  simp only [writeBytesL, List.length_append, List.length_take, List.length_drop]
  omega

theorem insertZeros_length (f : List Nat) (n pos : Nat) (h : pos ≤ f.length) :
    (insertZeros f n pos).length = f.length + n := by
  simp only [insertZeros, List.length_append, List.length_take, List.length_drop,
    List.length_replicate]
  omega

/-- Reading back an interior slice of a write returns the written bytes. -/
theorem readBytesL_writeBytesL (f bs : List Nat) (pos k m : Nat)
    (hp : pos ≤ f.length) (hk : k + m ≤ bs.length) :
    readBytesL (writeBytesL f pos bs) (pos + k) m = (bs.drop k).take m := by
  have hlen : (f.take pos).length = pos := by simp [List.length_take]; omega
  simp only [readBytesL, writeBytesL, List.append_assoc]
  rw [show pos + k = (f.take pos).length + k by rw [hlen], List.drop_append,
    List.drop_append_of_le_length (by omega)]
  rw [List.take_append_of_le_length (by simp [List.length_drop]; omega)]

/-- Bytes before the written region are untouched. -/
theorem writeBytesL_getElem_lt (f bs : List Nat) (pos i : Nat)
    (hp : pos ≤ f.length) (hi : i < pos) :
    (writeBytesL f pos bs)[i]? = f[i]? := by
  simp only [writeBytesL, List.append_assoc]
  rw [List.getElem?_append_left (by simp [List.length_take]; omega)]
  rw [List.getElem?_take_of_lt hi]

/-- Bytes at or beyond the end of the written region are untouched. -/
theorem writeBytesL_getElem_ge (f bs : List Nat) (pos i : Nat)
    (hp : pos + bs.length ≤ f.length) (hi : pos + bs.length ≤ i) :
    (writeBytesL f pos bs)[i]? = f[i]? := by
  have hlen : (f.take pos).length = pos := by simp [List.length_take]; omega
  simp only [writeBytesL, List.append_assoc]
  rw [List.getElem?_append_right (by simp [List.length_take]; omega)]
  rw [List.getElem?_append_right (by simp [hlen]; omega)]
  rw [List.getElem?_drop]
  congr 1
  simp [hlen]
  omega

/-! Offset-table rewriting (`MP4Tags.__update_offset_table` and friends). -/

/-- Entry width of a sample-offset table: `stco` entries are u32, `co64`
entries are u64. -/
inductive TWidth where
  | w32
  | w64
  deriving DecidableEq, Repr

def twBytes : TWidth → Nat
  | .w32 => 4
  | .w64 => 8

def twEnc : TWidth → Nat → List Nat
  | .w32 => u32BE
  | .w64 => u64BE

def twDec : TWidth → List Nat → Nat
  | .w32 => ru32
  | .w64 => ru64

theorem twEnc_length (tw : TWidth) (n : Nat) : (twEnc tw n).length = twBytes tw := by
  cases tw <;> rfl

theorem twDec_twEnc_append (tw : TWidth) (n : Nat) (r : List Nat)
    (h : n < 2 ^ (8 * twBytes tw)) : twDec tw (twEnc tw n ++ r) = n := by
  cases tw
  · exact ru32_u32BE_append n r (by norm_num [twBytes] at h; omega)
  · exact ru64_u64BE_append n r (by norm_num [twBytes] at h; omega)

theorem twDec_lt (tw : TWidth) (l : List Nat) (h : ∀ b ∈ l, b < 256) :
    twDec tw l < 2 ^ (8 * twBytes tw) := by
  cases tw
  · show ru32 l < 2 ^ 32
    match l with
    | a :: b :: c :: d :: _ =>
      have ha := h a (by simp)
      have hb := h b (by simp)
      have hc := h c (by simp)
      have hd := h d (by simp)
      simp only [ru32]
      omega
    | [] => simp [ru32]
    | [a] => simp [ru32]
    | [a, b] => simp [ru32]
    | [a, b, c] => simp [ru32]
  · show ru64 l < 2 ^ 64
    match l with
    | a :: b :: c :: d :: e :: f :: g :: hh :: _ =>
      have h1 := h a (by simp)
      have h2 := h b (by simp)
      have h3 := h c (by simp)
      have h4 := h d (by simp)
      have h5 := h e (by simp)
      have h6 := h f (by simp)
      have h7 := h g (by simp)
      have h8 := h hh (by simp)
      simp only [ru64]
      omega
    | [] => simp [ru64]
    | [a] => simp [ru64]
    | [a, b] => simp [ru64]
    | [a, b, c] => simp [ru64]
    | [a, b, c, d] => simp [ru64]
    | [a, b, c, d, e] => simp [ru64]
    | [a, b, c, d, e, f] => simp [ru64]
    | [a, b, c, d, e, f, g] => simp [ru64]

theorem flatten_map_enc_length (tw : TWidth) (l : List Nat) :
    ((l.map (twEnc tw)).flatten).length = twBytes tw * l.length := by
  induction l with
  | nil => simp
  | cons a t ih =>
    simp only [List.map_cons, List.flatten_cons, List.length_append, twEnc_length, ih,
      List.length_cons]
    ring

theorem flatten_map_enc_slice (tw : TWidth) (l : List Nat) (i : Nat) (hi : i < l.length) :
    (((l.map (twEnc tw)).flatten).drop (twBytes tw * i)).take (twBytes tw) =
      twEnc tw (l.get ⟨i, hi⟩) := by
  induction l generalizing i with
  | nil => simp at hi
  | cons a t ih =>
    cases i with
    | zero =>
      simp only [List.map_cons, List.flatten_cons, Nat.mul_zero, List.drop_zero, List.get]
      rw [show twBytes tw = (twEnc tw a).length from (twEnc_length tw a).symm,
        List.take_left]
    | succ j =>
      have hj : j < t.length := by simpa using hi
      simp only [List.map_cons, List.flatten_cons, List.get]
      rw [show twBytes tw * (j + 1) = (twEnc tw a).length + twBytes tw * j by
            rw [twEnc_length]; ring,
        List.drop_append]
      exact ih j hj

/-- The position of a table atom after the bump `if atom.offset > offset:
atom.offset += delta`. -/
def bumpPos (aOff : Nat) (delta : Int) (offset : Nat) : Nat :=
  if offset < aOff then ((aOff : Int) + delta).toNat else aOff

/-- `MP4Tags.__update_offset_table`: bump the atom position if it sits past
the splice point, read `[count:u32 | entries]` at the (bumped) position + 12,
shift every entry strictly greater than `offset` by `delta`, and write the
entries back at position + 16.  Returns the new file and the bumped atom
position. -/
def updateOffsetTable (tw : TWidth) (f : List Nat) (aOff aLen : Nat)
    (delta : Int) (offset : Nat) : List Nat × Nat :=
  let aoff := bumpPos aOff delta offset
  let dat := readBytesL f (aoff + 12) (aLen - 12)
  let count := ru32 dat
  let w := twBytes tw
  let entries := (List.range count).map (fun i => twDec tw ((dat.drop (4 + w * i)).take w))
  let entries2 := entries.map (fun e => if offset < e then ((e : Int) + delta).toNat else e)
  (writeBytesL f (aoff + 16) ((entries2.map (twEnc tw)).flatten), aoff)

/-- The `i`-th table entry as currently stored in the file, for a table whose
atom sits at `aoff`. -/
def tableEntry (tw : TWidth) (f : List Nat) (aoff i : Nat) : Nat :=
  twDec tw (readBytesL f (aoff + 16 + twBytes tw * i) (twBytes tw))

theorem slice_of_readBytesL (f : List Nat) (p m a w : Nat) (h : a + w ≤ m) :
    ((readBytesL f p m).drop a).take w = readBytesL f (p + a) w := by
  simp only [readBytesL]
  rw [List.drop_take, List.drop_drop, List.take_take]
  have hmin : min w (m - a) = w := by omega
  rw [hmin]

theorem twDec_twEnc (tw : TWidth) (n : Nat) (h : n < 2 ^ (8 * twBytes tw)) :
    twDec tw (twEnc tw n) = n := by
  rw [← List.append_nil (twEnc tw n)]
  exact twDec_twEnc_append tw n [] h


theorem mul_succ_le (w i n : Nat) (h : i < n) : w * i + w ≤ w * n := by
  have h2 : w * (i + 1) ≤ w * n := Nat.mul_le_mul_left w h
  rw [Nat.mul_succ] at h2
  exact h2

theorem tableEntry_write_entries (tw : TWidth) (f es : List Nat) (A i x : Nat)
    (h16 : A + 16 ≤ f.length)
    (hblob : twBytes tw * i + twBytes tw ≤ ((es.map (twEnc tw)).flatten).length)
    (hi : i < es.length) (hx : es[i]? = some x)
    (hxlt : x < 2 ^ (8 * twBytes tw)) :
    tableEntry tw (writeBytesL f (A + 16) ((es.map (twEnc tw)).flatten)) A i = x := by
  unfold tableEntry
  rw [readBytesL_writeBytesL f _ (A + 16) (twBytes tw * i) (twBytes tw) (by omega) hblob]
  rw [flatten_map_enc_slice tw es i hi]
  have hgx : es.get ⟨i, hi⟩ = x := by
    have h2 : es[i]? = some (es.get ⟨i, hi⟩) := by
      rw [List.getElem?_eq_getElem hi]
      rfl
    rw [h2] at hx
    exact Option.some.inj hx
  rw [hgx]
  exact twDec_twEnc tw x hxlt

theorem entriesTwo_lookup (tw : TWidth) (f : List Nat) (A aLen : Nat) (delta : Int)
    (offset count i : Nat) (hlen : aLen = 16 + twBytes tw * count) (hi : i < count) :
    (((List.range count).map (fun j =>
        twDec tw (((readBytesL f (A + 12) (aLen - 12)).drop (4 + twBytes tw * j)).take
          (twBytes tw)))).map
      (fun e => if offset < e then ((e : Int) + delta).toNat else e))[i]? =
      some (if offset < tableEntry tw f A i
            then ((tableEntry tw f A i : Int) + delta).toNat
            else tableEntry tw f A i) := by
  rw [List.getElem?_map, List.getElem?_map, List.getElem?_range hi]
  have hslice : ((readBytesL f (A + 12) (aLen - 12)).drop (4 + twBytes tw * i)).take
      (twBytes tw) = readBytesL f (A + 12 + (4 + twBytes tw * i)) (twBytes tw) := by
    refine slice_of_readBytesL f (A + 12) (aLen - 12) (4 + twBytes tw * i) (twBytes tw) ?_
    have := mul_succ_le (twBytes tw) i count hi
    omega
  have hpos : A + 12 + (4 + twBytes tw * i) = A + 16 + twBytes tw * i := by omega
  rw [hpos] at hslice
  simp only [Option.map_some', hslice]
  rfl

theorem updateOffsetTable_entry (tw : TWidth) (f : List Nat) (aOff aLen A : Nat)
    (delta : Int) (offset count i : Nat)
    (hA : bumpPos aOff delta offset = A)
    (hvalid : ∀ b ∈ f, b < 256)
    (hcount : count = ru32 (readBytesL f (A + 12) (aLen - 12)))
    (hlen : aLen = 16 + twBytes tw * count)
    (hbound : A + aLen ≤ f.length)
    (hi : i < count)
    (hrange : offset < tableEntry tw f A i →
      0 ≤ (tableEntry tw f A i : Int) + delta ∧
      (tableEntry tw f A i : Int) + delta < ((2 ^ (8 * twBytes tw) : Nat) : Int)) :
    (tableEntry tw (updateOffsetTable tw f aOff aLen delta offset).1 A i : Int) =
      if offset < tableEntry tw f A i
      then (tableEntry tw f A i : Int) + delta
      else (tableEntry tw f A i : Int) := by
  have hgg : (updateOffsetTable tw f aOff aLen delta offset).1 =
      writeBytesL f (A + 16)
        ((((List.range count).map (fun j =>
            twDec tw (((readBytesL f (A + 12) (aLen - 12)).drop (4 + twBytes tw * j)).take
              (twBytes tw)))).map
          (fun e => if offset < e then ((e : Int) + delta).toNat else e)).map
          (twEnc tw)).flatten := by
    rw [hcount, ← hA]
    rfl
  rw [hgg]
  have hlook := entriesTwo_lookup tw f A aLen delta offset count i hlen hi
  have heslen : ((((List.range count).map (fun j =>
      twDec tw (((readBytesL f (A + 12) (aLen - 12)).drop (4 + twBytes tw * j)).take
        (twBytes tw)))).map
      (fun e => if offset < e then ((e : Int) + delta).toNat else e)).length) = count := by
    simp
  have hblob : twBytes tw * i + twBytes tw ≤
      (((((List.range count).map (fun j =>
        twDec tw (((readBytesL f (A + 12) (aLen - 12)).drop (4 + twBytes tw * j)).take
          (twBytes tw)))).map
        (fun e => if offset < e then ((e : Int) + delta).toNat else e)).map
        (twEnc tw)).flatten).length := by
    rw [flatten_map_enc_length, heslen]
    exact mul_succ_le (twBytes tw) i count hi
  by_cases hcase : offset < tableEntry tw f A i
  · obtain ⟨hr1, hr2⟩ := hrange hcase
    rw [if_pos hcase] at hlook ⊢
    have hxlt : ((tableEntry tw f A i : Int) + delta).toNat < 2 ^ (8 * twBytes tw) := by
      omega
    rw [tableEntry_write_entries tw f _ A i _ (by omega) hblob (by omega) hlook hxlt]
    omega
  · rw [if_neg hcase] at hlook ⊢
    have hxlt : tableEntry tw f A i < 2 ^ (8 * twBytes tw) := by
      unfold tableEntry
      exact twDec_lt tw _ (fun b hb =>
        hvalid b (List.drop_subset _ _ (List.take_subset _ _ hb)))
    rw [tableEntry_write_entries tw f _ A i _ (by omega) hblob (by omega) hlook hxlt]

/-- C1: in `__update_offset_table` (called by `__update_offsets` for every
`stco` and `co64` atom found recursively under `moov`), every 32-bit (stco)
or 64-bit (co64) entry strictly greater than the region offset is rewritten
as its pre-save value plus `delta`, every entry less than or equal to the
region offset is written back unchanged, and a table atom whose own offset
is strictly greater than the region offset has its recorded position bumped
by `delta` before the table is read and rewritten (the reads and writes all
use the bumped position `bumpPos`). -/
theorem updateOffsetTable_spec (tw : TWidth) (f : List Nat) (aOff aLen : Nat)
    (delta : Int) (offset count : Nat)
    (hvalid : ∀ b ∈ f, b < 256)
    (hcount : count = ru32 (readBytesL f (bumpPos aOff delta offset + 12) (aLen - 12)))
    (hlen : aLen = 16 + twBytes tw * count)
    (hbound : bumpPos aOff delta offset + aLen ≤ f.length)
    (hbump : 0 ≤ (aOff : Int) + delta)
    (hrange : ∀ i, i < count → offset < tableEntry tw f (bumpPos aOff delta offset) i →
      0 ≤ (tableEntry tw f (bumpPos aOff delta offset) i : Int) + delta ∧
      (tableEntry tw f (bumpPos aOff delta offset) i : Int) + delta
        < ((2 ^ (8 * twBytes tw) : Nat) : Int)) :
    ((updateOffsetTable tw f aOff aLen delta offset).2 : Int) =
      (if offset < aOff then (aOff : Int) + delta else (aOff : Int)) ∧
    (∀ i, i < count →
      (tableEntry tw (updateOffsetTable tw f aOff aLen delta offset).1
          (bumpPos aOff delta offset) i : Int) =
        if offset < tableEntry tw f (bumpPos aOff delta offset) i
        then (tableEntry tw f (bumpPos aOff delta offset) i : Int) + delta
        else (tableEntry tw f (bumpPos aOff delta offset) i : Int)) := by
  constructor
  · have h2 : (updateOffsetTable tw f aOff aLen delta offset).2 =
        bumpPos aOff delta offset := rfl
    rw [h2]
    unfold bumpPos
    split
    · rw [Int.toNat_of_nonneg hbump]
    · rfl
  · intro i hi
    exact updateOffsetTable_entry tw f aOff aLen (bumpPos aOff delta offset) delta offset
      count i rfl hvalid hcount hlen hbound hi (hrange i hi)

/-- A 20-byte file holding a single one-entry `stco` table: entry 256. -/
def c1File : List Nat :=
  [0, 0, 0, 20, 115, 116, 99, 111, 0, 0, 0, 0, 0, 0, 0, 1, 0, 0, 1, 0]

/-- Witness for C1: splicing 4 bytes at offset 10 moves the entry 256 of the
concrete one-entry table to 260. -/
theorem updateOffsetTable_spec_witness :
    (tableEntry TWidth.w32 (updateOffsetTable TWidth.w32 c1File 0 20 4 10).1
      (bumpPos 0 4 10) 0 : Int) = 260 := by
  have h := (updateOffsetTable_spec TWidth.w32 c1File 0 20 4 10 1 (by decide) (by decide)
    (by decide) (by decide) (by decide) (by decide)).2 0 (by decide)
  rw [h]
  decide

/-! The splice engine (`MP4Tags.__save_existing` and helpers). -/

/-- `MP4Tags.__update_tfhd`: bump the atom position if it sits past the
splice point, read the 3-byte flags at position + 9, and when
base-data-offset-present (bit 0) adjust the u64 base offset at
position + 16 if it exceeds the splice offset. -/
def updateTfhd (f : List Nat) (aOff aLen : Nat) (delta : Int) (offset : Nat) :
    List Nat :=
  let aoff := bumpPos aOff delta offset
  let dat := readBytesL f (aoff + 9) (aLen - 9)
  let flags := ru32 (0 :: dat.take 3)
  if flags % 2 = 1 then
    let o := ru64 ((dat.drop 7).take 8)
    let o2 := if offset < o then ((o : Int) + delta).toNat else o
    writeBytesL f (aoff + 16) (u64BE o2)
  else f

/-- `MP4Tags.__update_offsets`: nothing to do when `delta == 0`; otherwise
update every `stco` table, then every `co64` table, then every `tfhd`
(each given as an (offset, length) pair, in the document order produced by
`findall`). -/
def updateOffsetsL (f : List Nat) (stco co64 tfhd : List (Nat × Nat))
    (delta : Int) (offset : Nat) : List Nat :=
  if delta = 0 then f
  else
    let f1 := stco.foldl (fun g t => (updateOffsetTable .w32 g t.1 t.2 delta offset).1) f
    let f2 := co64.foldl (fun g t => (updateOffsetTable .w64 g t.1 t.2 delta offset).1) f1
    tfhd.foldl (fun g t => updateTfhd g t.1 t.2 delta offset) f2

/-- `MP4Tags.__update_parents`: rewrite one ancestor's size field; a box
whose u32 size field is 1 keeps the extended form and has its u64 size at
offset + 8 rewritten instead. -/
def updateParent (f : List Nat) (aOff : Nat) (delta : Int) : List Nat :=
  let size := ru32 (readBytesL f aOff 4)
  if size = 1 then
    let size64 := ru64 ((readBytesL f (aOff + 4) 12).drop 4)
    writeBytesL f (aOff + 8) (u64BE ((size64 : Int) + delta).toNat)
  else
    writeBytesL f aOff (u32BE ((size : Int) + delta).toNat)

def updateParents (f : List Nat) (ancestors : List Nat) (delta : Int) : List Nat :=
  ancestors.foldl (fun g a => updateParent g a delta) f

/-- `MP4Tags.__pad_ilst(data, length)`: a `free` atom with the given number
of zero payload bytes; when no length is given, `(len(data) + 1023) & ~1023
- len(data)` bytes (clearing the ten low bits of `len(data) + 1023` rounds
it down to a multiple of 1024, i.e. `(len(data) + 1023) / 1024 * 1024`). -/
def padIlst (data : List Nat) (length : Option Nat) : List Nat :=
  let l := match length with
    | none => (data.length + 1023) / 1024 * 1024 - data.length
    | some n => n
  atomRender freeName (List.replicate l 0)

/-- The file splice a save decides on. -/
inductive SpliceOp where
  | noSplice
  | insertAt (n : Nat) (pos : Nat)
  deriving DecidableEq, Repr

/-- The branch structure of `MP4Tags.__save_existing` after the effective
region (offset, length) is known: returns the bytes to write at the region
offset, the final delta, and the splice performed before writing. -/
def saveExistingCore (data : List Nat) (length offset : Nat) :
    List Nat × Int × SpliceOp :=
  let delta : Int := (data.length : Int) - (length : Int)
  if 0 < delta ∨ (delta < 0 ∧ -8 < delta) then
    let data2 := data ++ padIlst data none
    let delta2 : Int := (data2.length : Int) - (length : Int)
    (data2, delta2, .insertAt delta2.toNat offset)
  else if delta < 0 then
    (data ++ padIlst data (some ((-delta - 8).toNat)), 0, .noSplice)
  else (data, 0, .noSplice)

def applySplice (f : List Nat) : SpliceOp → List Nat
  | .noSplice => f
  | .insertAt n pos => insertZeros f n pos

/-- `__save_existing` end to end on a file: decide the branch, splice, write
the new bytes at the region offset, fix the ancestor sizes, fix the offset
tables. -/
def saveExistingFull (f : List Nat) (ancestors : List Nat)
    (stco co64 tfhd : List (Nat × Nat)) (data : List Nat) (offset length : Nat) :
    List Nat :=
  let r := saveExistingCore data length offset
  let f1 := applySplice f r.2.2
  let f2 := writeBytesL f1 offset r.1
  let f3 := updateParents f2 ancestors r.2.1
  updateOffsetsL f3 stco co64 tfhd r.2.1 offset

theorem u32BE_valid (n : Nat) : ∀ b ∈ u32BE n, b < 256 := by
  intro b hb
  simp only [u32BE, List.mem_cons, List.not_mem_nil, or_false] at hb
  rcases hb with h | h | h | h <;> subst h <;> omega

theorem u64BE_valid (n : Nat) : ∀ b ∈ u64BE n, b < 256 := by
  intro b hb
  simp only [u64BE, List.mem_cons, List.not_mem_nil, or_false] at hb
  rcases hb with h | h | h | h | h | h | h | h <;> subst h <;> omega

theorem atomRender_length (name data : List Nat) (hn : name.length = 4)
    (h : data.length + 8 ≤ 4294967295) :
    (atomRender name data).length = data.length + 8 := by
  simp only [atomRender, if_pos h, List.length_append, u32BE_length, hn]
  omega

theorem atomRender_valid (name data : List Nat) (hname : ∀ b ∈ name, b < 256)
    (hdata : ∀ b ∈ data, b < 256) : ∀ b ∈ atomRender name data, b < 256 := by
  intro b hb
  simp only [atomRender] at hb
  split at hb <;> simp only [List.mem_append] at hb
  · rcases hb with (h | h) | h
    · exact u32BE_valid _ b h
    · exact hname b h
    · exact hdata b h
  · rcases hb with ((h | h) | h) | h
    · exact u32BE_valid _ b h
    · exact hname b h
    · exact u64BE_valid _ b h
    · exact hdata b h

theorem writeBytesL_valid (f bs : List Nat) (pos : Nat)
    (hf : ∀ b ∈ f, b < 256) (hbs : ∀ b ∈ bs, b < 256) :
    ∀ b ∈ writeBytesL f pos bs, b < 256 := by
  intro b hb
  simp only [writeBytesL, List.mem_append] at hb
  rcases hb with (h | h) | h
  · exact hf b (List.take_subset _ _ h)
  · exact hbs b h
  · exact hf b (List.drop_subset _ _ h)

theorem writeBytesL_slice_self (f : List Nat) (p n : Nat) (h : p + n ≤ f.length) :
    writeBytesL f p (readBytesL f p n) = f := by
  simp only [writeBytesL, readBytesL]
  have hlen : ((f.drop p).take n).length = n := by
    simp only [List.length_take, List.length_drop]
    omega
  rw [hlen]
  have h1 : f.drop (p + n) = (f.drop p).drop n := by rw [List.drop_drop]
  rw [h1, List.append_assoc, List.take_append_drop, List.take_append_drop]

theorem u32BE_ru32_of_len (l : List Nat) (hl : l.length = 4)
    (hv : ∀ b ∈ l, b < 256) : u32BE (ru32 l) = l := by
  match l with
  | [a, b, c, d] =>
    exact u32BE_ru32 a b c d [] (hv a (by simp)) (hv b (by simp)) (hv c (by simp))
      (hv d (by simp))

theorem u64BE_ru64_of_len (l : List Nat) (hl : l.length = 8)
    (hv : ∀ b ∈ l, b < 256) : u64BE (ru64 l) = l := by
  match l with
  | [a, b, c, d, e, f, g, h] =>
    exact u64BE_ru64 a b c d e f g h [] (hv a (by simp)) (hv b (by simp))
      (hv c (by simp)) (hv d (by simp)) (hv e (by simp)) (hv f (by simp))
      (hv g (by simp)) (hv h (by simp))

theorem readBytesL_length (f : List Nat) (p n : Nat) (h : p + n ≤ f.length) :
    (readBytesL f p n).length = n := by
  simp only [readBytesL, List.length_take, List.length_drop]
  omega

theorem readBytesL_valid (f : List Nat) (p n : Nat) (hv : ∀ b ∈ f, b < 256) :
    ∀ b ∈ readBytesL f p n, b < 256 := fun b hb =>
  hv b (List.drop_subset _ _ (List.take_subset _ _ hb))

/-- With `delta = 0`, rewriting an ancestor size field writes back the bytes
it just read, so the file is unchanged. -/
theorem updateParent_zero (f : List Nat) (aOff : Nat)
    (hb : aOff + 16 ≤ f.length) (hv : ∀ b ∈ f, b < 256) :
    updateParent f aOff 0 = f := by
  by_cases hs : ru32 (readBytesL f aOff 4) = 1
  · simp only [updateParent, if_pos hs]
    have hslice : (readBytesL f (aOff + 4) 12).drop 4 = readBytesL f (aOff + 8) 8 := by
      simp only [readBytesL]
      rw [List.drop_take, List.drop_drop]
    rw [hslice]
    have hcast : ((ru64 (readBytesL f (aOff + 8) 8) : Int) + 0).toNat =
        ru64 (readBytesL f (aOff + 8) 8) := by omega
    rw [hcast]
    rw [u64BE_ru64_of_len _ (readBytesL_length f (aOff + 8) 8 (by omega))
      (readBytesL_valid f (aOff + 8) 8 hv)]
    exact writeBytesL_slice_self f (aOff + 8) 8 (by omega)
  · simp only [updateParent, if_neg hs]
    have hcast : ((ru32 (readBytesL f aOff 4) : Int) + 0).toNat =
        ru32 (readBytesL f aOff 4) := by omega
    rw [hcast]
    rw [u32BE_ru32_of_len _ (readBytesL_length f aOff 4 (by omega))
      (readBytesL_valid f aOff 4 hv)]
    exact writeBytesL_slice_self f aOff 4 (by omega)

theorem updateParents_zero (f : List Nat) (ancestors : List Nat)
    (hb : ∀ a ∈ ancestors, a + 16 ≤ f.length) (hv : ∀ b ∈ f, b < 256) :
    updateParents f ancestors 0 = f := by
  induction ancestors with
  | nil => rfl
  | cons a t ih =>
    unfold updateParents
    simp only [List.foldl_cons]
    rw [updateParent_zero f a (hb a (by simp)) hv]
    exact ih (fun x hx => hb x (by simp [hx]))

theorem updateParent_length (f : List Nat) (aOff : Nat) (delta : Int)
    (hb : aOff + 16 ≤ f.length) : (updateParent f aOff delta).length = f.length := by
  by_cases hs : ru32 (readBytesL f aOff 4) = 1
  · simp only [updateParent, if_pos hs]
    exact writeBytesL_length f _ (aOff + 8) (by rw [u64BE_length]; omega)
  · simp only [updateParent, if_neg hs]
    exact writeBytesL_length f _ aOff (by rw [u32BE_length]; omega)

theorem updateParents_length (f : List Nat) (ancestors : List Nat) (delta : Int)
    (hb : ∀ a ∈ ancestors, a + 16 ≤ f.length) :
    (updateParents f ancestors delta).length = f.length := by
  induction ancestors generalizing f with
  | nil => rfl
  | cons a t ih =>
    unfold updateParents
    simp only [List.foldl_cons]
    have h1 : (updateParent f a delta).length = f.length :=
      updateParent_length f a delta (hb a (by simp))
    have h2 := ih (updateParent f a delta) (fun x hx => by rw [h1]; exact hb x (by simp [hx]))
    unfold updateParents at h2
    rw [h2, h1]

theorem updateOffsetsL_zero (f : List Nat) (stco co64 tfhd : List (Nat × Nat))
    (offset : Nat) : updateOffsetsL f stco co64 tfhd 0 offset = f := by
  simp [updateOffsetsL]

/-- C2: replacing an existing `ilst` whose new bytes are at least 8 bytes
shorter than the effective region (`need < old_len`, `old_len - need ≥ 8`)
writes the new bytes followed by a `free` atom with exactly
`old_len - need - 8` payload bytes, for a total of `old_len` bytes written in
place; the delta is 0, no splice happens, the file length is unchanged, the
`delta == 0` early return skips the offset tables entirely (`updateOffsetsL`
with delta 0 is the identity, so no stco/co64/tfhd entry changes), and every
byte outside the region keeps its value. -/
theorem saveExisting_inplace_shrink (f data : List Nat) (ancestors : List Nat)
    (stco co64 tfhd : List (Nat × Nat)) (offset oldLen : Nat)
    (hshrink : data.length + 8 ≤ oldLen)
    (hmax : oldLen ≤ 4294967295)
    (hreg : offset + oldLen ≤ f.length)
    (hanc : ∀ a ∈ ancestors, a + 16 ≤ f.length)
    (hvf : ∀ b ∈ f, b < 256) (hvd : ∀ b ∈ data, b < 256) :
    saveExistingCore data oldLen offset =
      (data ++ atomRender freeName (List.replicate (oldLen - data.length - 8) 0), 0,
        .noSplice) ∧
    (data ++ atomRender freeName (List.replicate (oldLen - data.length - 8) 0)).length
      = oldLen ∧
    saveExistingFull f ancestors stco co64 tfhd data offset oldLen =
      writeBytesL f offset
        (data ++ atomRender freeName (List.replicate (oldLen - data.length - 8) 0)) ∧
    (saveExistingFull f ancestors stco co64 tfhd data offset oldLen).length = f.length ∧
    (∀ i, i < offset ∨ offset + oldLen ≤ i →
      (saveExistingFull f ancestors stco co64 tfhd data offset oldLen)[i]? = f[i]?) := by
  have hc1 : ¬(0 < (data.length : Int) - (oldLen : Int) ∨
      ((data.length : Int) - (oldLen : Int) < 0 ∧
        -8 < (data.length : Int) - (oldLen : Int))) := by omega
  have hc2 : (data.length : Int) - (oldLen : Int) < 0 := by omega
  have hX : (-(((data.length : Int)) - (oldLen : Int)) - 8).toNat =
      oldLen - data.length - 8 := by omega
  have hcore : saveExistingCore data oldLen offset =
      (data ++ atomRender freeName (List.replicate (oldLen - data.length - 8) 0), 0,
        .noSplice) := by
    simp only [saveExistingCore, if_neg hc1, if_pos hc2, padIlst, hX]
  have hplen : (atomRender freeName (List.replicate (oldLen - data.length - 8) 0)).length
      = (oldLen - data.length - 8) + 8 := by
    rw [atomRender_length freeName _ rfl (by simp only [List.length_replicate]; omega)]
    simp only [List.length_replicate]
  have hwlen : (data ++ atomRender freeName
      (List.replicate (oldLen - data.length - 8) 0)).length = oldLen := by
    simp only [List.length_append, hplen]
    omega
  have hwvalid : ∀ b ∈ data ++ atomRender freeName
      (List.replicate (oldLen - data.length - 8) 0), b < 256 := by
    intro b hb
    rcases List.mem_append.mp hb with h | h
    · exact hvd b h
    · exact atomRender_valid freeName _ (by decide)
        (fun x hx => by rw [List.eq_of_mem_replicate hx]; omega) b h
  have hfull : saveExistingFull f ancestors stco co64 tfhd data offset oldLen =
      writeBytesL f offset (data ++ atomRender freeName
        (List.replicate (oldLen - data.length - 8) 0)) := by
    have h1 : saveExistingFull f ancestors stco co64 tfhd data offset oldLen =
        updateOffsetsL (updateParents (writeBytesL
            (applySplice f (saveExistingCore data oldLen offset).2.2) offset
            (saveExistingCore data oldLen offset).1) ancestors
          (saveExistingCore data oldLen offset).2.1) stco co64 tfhd
          (saveExistingCore data oldLen offset).2.1 offset := rfl
    rw [h1, hcore]
    simp only [applySplice]
    have hw2len : (writeBytesL f offset (data ++ atomRender freeName
        (List.replicate (oldLen - data.length - 8) 0))).length = f.length :=
      writeBytesL_length f _ offset (by rw [hwlen]; omega)
    rw [updateParents_zero _ ancestors (fun a ha => by rw [hw2len]; exact hanc a ha)
      (writeBytesL_valid f _ offset hvf hwvalid)]
    exact updateOffsetsL_zero _ stco co64 tfhd offset
  refine ⟨hcore, hwlen, hfull, ?_, ?_⟩
  · rw [hfull]
    exact writeBytesL_length f _ offset (by rw [hwlen]; omega)
  · intro i hi
    rw [hfull]
    rcases hi with h | h
    · exact writeBytesL_getElem_lt f _ offset i (by omega) h
    · exact writeBytesL_getElem_ge f _ offset i (by rw [hwlen]; omega) (by rw [hwlen]; omega)

/-- Witness for C2 at a concrete file and tag data. -/
theorem saveExisting_inplace_shrink_witness :
    (saveExistingFull (List.replicate 40 1) [0] [] [] [] (List.replicate 16 2) 8 24).length
      = 40 := by
  have h := (saveExisting_inplace_shrink (List.replicate 40 1) (List.replicate 16 2) [0]
    [] [] [] 8 24 (by decide) (by decide) (by decide) (by decide)
    (by decide) (by decide)).2.2.2.1
  simpa using h

theorem updateOffsetsL_nil (f : List Nat) (delta : Int) (offset : Nat) :
    updateOffsetsL f [] [] [] delta offset = f := by
  by_cases h : delta = 0 <;> simp [updateOffsetsL, h]

/-- The new ilst bytes padded to the next 1024-byte boundary with a trailing
`free` sub-atom (`data + self.__pad_ilst(data)`). -/
def padIlstDefault (data : List Nat) : List Nat := data ++ padIlst data none

/-- C4: when the new ilst bytes do not fit the effective region in place
(`need > old_len`, or `need < old_len` with `old_len - need < 8`), save pads
the new payload with a `free` atom of `((need + 1023) & ~1023) - need` zero
payload bytes and grows the file at the region offset by
`delta = padded_need - old_len` (which is positive); a shrink of exactly 8
bytes instead takes the in-place path and emits a zero-payload `free` box. -/
theorem saveExisting_grow_pad (f data : List Nat) (ancestors : List Nat)
    (offset oldLen : Nat)
    (hreg : offset + oldLen ≤ f.length)
    (hanc : ∀ a ∈ ancestors, a + 16 ≤ f.length) :
    (oldLen < data.length ∨ (data.length < oldLen ∧ oldLen - data.length < 8) →
      saveExistingCore data oldLen offset =
        (padIlstDefault data, ((padIlstDefault data).length : Int) - (oldLen : Int),
          .insertAt ((((padIlstDefault data).length : Int) - (oldLen : Int)).toNat) offset) ∧
      (padIlstDefault data).length =
        data.length + (((data.length + 1023) / 1024 * 1024 - data.length) + 8) ∧
      0 < ((padIlstDefault data).length : Int) - (oldLen : Int) ∧
      (saveExistingFull f ancestors [] [] [] data offset oldLen).length =
        f.length + ((((padIlstDefault data).length : Int) - (oldLen : Int)).toNat)) ∧
    (oldLen = data.length + 8 →
      saveExistingCore data oldLen offset =
        (data ++ atomRender freeName [], 0, .noSplice)) := by
  have hPlen : (padIlstDefault data).length =
      data.length + (((data.length + 1023) / 1024 * 1024 - data.length) + 8) := by
    have hpadlt : (data.length + 1023) / 1024 * 1024 - data.length ≤ 1023 := by omega
    simp only [padIlstDefault, padIlst, List.length_append]
    rw [atomRender_length freeName _ rfl (by simp only [List.length_replicate]; omega)]
    simp only [List.length_replicate]
  constructor
  · intro hgrow
    have hcond : 0 < (data.length : Int) - (oldLen : Int) ∨
        ((data.length : Int) - (oldLen : Int) < 0 ∧
          -8 < (data.length : Int) - (oldLen : Int)) := by omega
    have hcore : saveExistingCore data oldLen offset =
        (padIlstDefault data, ((padIlstDefault data).length : Int) - (oldLen : Int),
          .insertAt ((((padIlstDefault data).length : Int) - (oldLen : Int)).toNat)
            offset) := by
      simp only [saveExistingCore, if_pos hcond, padIlstDefault]
    have hpos : 0 < ((padIlstDefault data).length : Int) - (oldLen : Int) := by
      rw [hPlen]
      push_cast
      omega
    refine ⟨hcore, hPlen, hpos, ?_⟩
    have h1 : saveExistingFull f ancestors [] [] [] data offset oldLen =
        updateOffsetsL (updateParents (writeBytesL
            (applySplice f (saveExistingCore data oldLen offset).2.2) offset
            (saveExistingCore data oldLen offset).1) ancestors
          (saveExistingCore data oldLen offset).2.1) [] [] []
          (saveExistingCore data oldLen offset).2.1 offset := rfl
    rw [h1, hcore]
    simp only [applySplice]
    rw [updateOffsetsL_nil]
    have hf1len : (insertZeros f ((((padIlstDefault data).length : Int) -
        (oldLen : Int)).toNat) offset).length =
        f.length + ((((padIlstDefault data).length : Int) - (oldLen : Int)).toNat) :=
      insertZeros_length f _ offset (by omega)
    have hf2len : (writeBytesL (insertZeros f ((((padIlstDefault data).length : Int) -
        (oldLen : Int)).toNat) offset) offset (padIlstDefault data)).length =
        f.length + ((((padIlstDefault data).length : Int) - (oldLen : Int)).toNat) := by
      rw [writeBytesL_length _ _ offset (by rw [hf1len]; omega)]
      exact hf1len
    have hanc3 : ∀ a ∈ ancestors, a + 16 ≤
        (writeBytesL (insertZeros f ((((padIlstDefault data).length : Int) -
          (oldLen : Int)).toNat) offset) offset (padIlstDefault data)).length := by
      intro a ha
      rw [hf2len]
      have h2 := hanc a ha
      omega
    rw [updateParents_length _ ancestors _ hanc3]
    exact hf2len
  · intro heq
    have hc1 : ¬(0 < (data.length : Int) - (oldLen : Int) ∨
        ((data.length : Int) - (oldLen : Int) < 0 ∧
          -8 < (data.length : Int) - (oldLen : Int))) := by omega
    have hc2 : (data.length : Int) - (oldLen : Int) < 0 := by omega
    have hX : (-(((data.length : Int)) - (oldLen : Int)) - 8).toNat = 0 := by omega
    simp only [saveExistingCore, if_neg hc1, if_pos hc2, padIlst, hX, List.replicate]

set_option maxRecDepth 40000 in
/-- Witness for C4: a 9-byte payload replacing an 8-byte region grows the
file by 1024 bytes. -/
theorem saveExisting_grow_pad_witness :
    (saveExistingFull (List.replicate 40 1) [] [] [] [] (List.replicate 9 2) 8 8).length
      = 1064 := by
  have h := ((saveExisting_grow_pad (List.replicate 40 1) (List.replicate 9 2) [] 8 8
    (by decide) (by decide)).1 (by decide)).2.2.2
  rw [h]
  decide

/-! The effective replacement region of `__save_existing` (claim C3). -/

/-- A sibling atom as `__save_existing` sees it. -/
structure SAtom where
  name : List Nat
  offset : Nat
  length : Nat
  deriving DecidableEq, Repr

/-- Python list indexing `l[i]`: a negative index counts from the end of the
list, and `IndexError` (here `none`) is raised only when the index is out of
range on either side. -/
def pyGet {α : Type} (l : List α) (i : Int) : Option α :=
  if 0 ≤ i then l[i.toNat]?
  else
    let j := (l.length : Int) + i
    if 0 ≤ j then l[j.toNat]? else none

/-- The effective region computation of `__save_existing`: with `ilst` at
`index` in its parent's child list, `meta.children[index - 1]` is absorbed
when it is a `free` atom — for `index = 0` Python evaluates
`children[-1]`, the last child, because negative indexing does not raise
the `IndexError` the surrounding `try` expects — and `children[index + 1]`
is absorbed when present and `free`. -/
def effectiveRegion (children : List SAtom) (index : Nat) : Nat × Nat :=
  match children[index]? with
  | none => (0, 0)
  | some ilst =>
    let p1 : Nat × Nat :=
      match pyGet children ((index : Int) - 1) with
      | some prev =>
        if prev.name = freeName then (prev.offset, ilst.length + prev.length)
        else (ilst.offset, ilst.length)
      | none => (ilst.offset, ilst.length)
    match children[index + 1]? with
    | some nxt => if nxt.name = freeName then (p1.1, p1.2 + nxt.length) else p1
    | none => p1

/-- Modelled from the spec: the effective region starts at the previous
sibling's offset exactly when such a previous sibling exists and is `free`
(so never when `ilst` is the first child), and absorbs the next sibling
exactly when it exists and is `free`. -/
def effectiveRegionSpec (children : List SAtom) (index : Nat) : Nat × Nat :=
  match children[index]? with
  | none => (0, 0)
  | some ilst =>
    let p1 : Nat × Nat :=
      if index = 0 then (ilst.offset, ilst.length)
      else
        match children[index - 1]? with
        | some prev =>
          if prev.name = freeName then (prev.offset, ilst.length + prev.length)
          else (ilst.offset, ilst.length)
        | none => (ilst.offset, ilst.length)
    match children[index + 1]? with
    | some nxt => if nxt.name = freeName then (p1.1, p1.2 + nxt.length) else p1
    | none => p1

/-- C3 (code bug): when `ilst` is the first child and the parent's last
child is a `free` atom, Python's negative indexing makes the code treat the
last child as the "previous sibling": the region starts at the last child's
offset 180 and absorbs its 20 bytes, instead of starting at ilst's own
offset 100 as the spec states; at `index = 1` the two definitions agree. -/
theorem effectiveRegion_first_child_bug :
    effectiveRegion
      [⟨ilstName, 100, 50⟩, ⟨hdlrName, 150, 30⟩, ⟨freeName, 180, 20⟩] 0 = (180, 70) ∧
    effectiveRegionSpec
      [⟨ilstName, 100, 50⟩, ⟨hdlrName, 150, 30⟩, ⟨freeName, 180, 20⟩] 0 = (100, 50) ∧
    effectiveRegion
      [⟨ilstName, 100, 50⟩, ⟨hdlrName, 150, 30⟩, ⟨freeName, 180, 20⟩] 0 ≠
      effectiveRegionSpec
        [⟨ilstName, 100, 50⟩, ⟨hdlrName, 150, 30⟩, ⟨freeName, 180, 20⟩] 0 ∧
    effectiveRegion [⟨freeName, 100, 20⟩, ⟨ilstName, 120, 50⟩] 1 =
      effectiveRegionSpec [⟨freeName, 100, 20⟩, ⟨ilstName, 120, 50⟩] 1 := by
  decide

/-! The tag map and the per-tag parsers (claims C7, C8, C10). -/

/-- A decoded tag value.  `bins` holds the raw byte payloads of text-class
tags (the UTF-8 decoding with replacement does not change how many values a
tag yields, which is all the claims below depend on). -/
inductive TagValue where
  | strs (l : List String)
  | bins (l : List (List Nat))
  | pairs (l : List (Nat × Nat))
  | covers (l : List (Nat × List Nat))
  deriving DecidableEq, Repr

/-- The tag dictionary (`self` of `MP4Tags`), as an association list with
dict-style overwrite on insert. -/
abbrev TagMap := List (List Nat × TagValue)

def tmContains (m : TagMap) (k : List Nat) : Bool :=
  m.any (fun p => p.1 = k)

def tmInsert (m : TagMap) (k : List Nat) (v : TagValue) : TagMap :=
  (k, v) :: m.filter (fun p => p.1 ≠ k)

theorem tmContains_tmInsert (m : TagMap) (k : List Nat) (v : TagValue) :
    tmContains (tmInsert m k v) k = true := by
  simp [tmContains, tmInsert]

/-- Modelled from the spec: the fixed ID3v1 genre table (`GENRES` is imported
from `mutagenx._constants`, which is not under src/): the 80 standard ID3v1
genre names, 0-indexed, so that the spec's 1-indexed entry 18 is "Rock". -/
def genresList : List String :=
  ["Blues", "Classic Rock", "Country", "Dance", "Disco", "Funk", "Grunge",
   "Hip-Hop", "Jazz", "Metal", "New Age", "Oldies", "Other", "Pop", "R&B",
   "Rap", "Reggae", "Rock", "Techno", "Industrial", "Alternative", "Ska",
   "Death Metal", "Pranks", "Soundtrack", "Euro-Techno", "Ambient",
   "Trip-Hop", "Vocal", "Jazz+Funk", "Fusion", "Trance", "Classical",
   "Instrumental", "Acid", "House", "Game", "Sound Clip", "Gospel", "Noise",
   "AlternRock", "Bass", "Soul", "Punk", "Space", "Meditative",
   "Instrumental Pop", "Instrumental Rock", "Ethnic", "Gothic", "Darkwave",
   "Techno-Industrial", "Electronic", "Pop-Folk", "Eurodance", "Dream",
   "Southern Rock", "Comedy", "Cult", "Gangsta", "Top 40", "Christian Rap",
   "Pop/Funk", "Jungle", "Native American", "Cabaret", "New Wave",
   "Psychadelic", "Rave", "Showtunes", "Trailer", "Lo-Fi", "Tribal",
   "Acid Punk", "Acid Jazz", "Polka", "Retro", "Musical", "Rock & Roll",
   "Hard Rock"]

/-- `MP4Tags.__parse_genre`: decode the genre index from payload bytes
[16..18] (modelled from the spec as a u16 — `cdata` is not under src/),
and, when `©gen` is absent, store `GENRES[genre - 1]`; `GENRES[genre - 1]`
is evaluated with Python list indexing, so `genre = 0` yields the last
table entry instead of the `IndexError` the surrounding `try` swallows. -/
def parseGenre (m : TagMap) (data : List Nat) : TagMap :=
  let genre := ru16 ((data.drop 16).take 2)
  if tmContains m genKey then m
  else
    match pyGet genresList ((genre : Int) - 1) with
    | some g => tmInsert m genKey (.strs [g])
    | none => m

/-- C8 (code bug): a `gnre` payload whose index bytes decode to 0 — outside
the 1-indexed table — imports the last table entry ("Hard Rock") under
`©gen` via Python's negative indexing instead of being skipped; in-range
index 18 imports "Rock", a large out-of-range index is skipped
(`IndexError` swallowed), and nothing is imported when `©gen` is already
present. -/
theorem parseGenre_zero_index_bug :
    parseGenre [] (List.replicate 18 0) = [(genKey, TagValue.strs ["Hard Rock"])] ∧
    parseGenre [] (List.replicate 16 0 ++ [0, 18]) = [(genKey, TagValue.strs ["Rock"])] ∧
    parseGenre [] (List.replicate 16 0 ++ [0, 200]) = [] ∧
    parseGenre [(genKey, TagValue.strs ["Pop"])] (List.replicate 16 0 ++ [0, 18]) =
      [(genKey, TagValue.strs ["Pop"])] := by
  decide

/-- `MP4Tags.__parse_data`: iterate the `data` sub-atoms of a tag atom with
the given total length, yielding (flags, payload) pairs; a sibling that is
not `data` raises, and a truncated 12-byte header is a `struct.error`. -/
def parseDataF : Nat → Nat → List Nat → Except MPErr (List (Nat × List Nat))
  | 0, _, _ => .error .fuelOut
  | fuel + 1, rem, data =>
    if 0 < rem then
      if (data.take 12).length = 12 then
        let length := ru32 data
        let nm := (data.drop 4).take 4
        let flags := ru32 (data.drop 8)
        if nm = dataName then
          match parseDataF fuel (rem - length) (data.drop length) with
          | .ok rest => .ok ((flags, (data.drop 16).take (length - 16)) :: rest)
          | .error e => .error e
        else .error .unexpectedAtom
      else .error .structError
    else .ok []

/-- `MP4Tags.__parse_text`: keep the data sub-atoms whose flags equal the
expected value; store the key only when the resulting list is nonempty. -/
def parseTextTag (m : TagMap) (key : List Nat) (atomLength : Nat) (data : List Nat)
    (expectedFlags fuel : Nat) : Except MPErr TagMap :=
  match parseDataF fuel (atomLength - 8) data with
  | .error e => .error e
  | .ok items =>
    let value := (items.filter (fun p => p.1 = expectedFlags)).map (fun p => p.2)
    if value.isEmpty then .ok m else .ok (tmInsert m key (.bins value))

/-- `struct.unpack(">2H", d[2:6])` on one data sub-atom payload (a slice
shorter than 4 bytes is a `struct.error`). -/
def unpackPair (p : Nat × List Nat) : Except MPErr (Nat × Nat) :=
  if ((p.2.drop 2).take 4).length = 4 then
    .ok (ru16 ((p.2.drop 2).take 4), ru16 (((p.2.drop 2).take 4).drop 2))
  else .error .structError

/-- `MP4Tags.__parse_pair`: `struct.unpack(">2H", d[2:6])` for each data
sub-atom payload. -/
def parsePairList (fuel atomLength : Nat) (data : List Nat) :
    Except MPErr (List (Nat × Nat)) :=
  match parseDataF fuel (atomLength - 8) data with
  | .error e => .error e
  | .ok items => items.mapM unpackPair

def parsePairTag (m : TagMap) (key : List Nat) (atomLength : Nat) (data : List Nat)
    (fuel : Nat) : Except MPErr TagMap :=
  match parsePairList fuel atomLength data with
  | .error e => .error e
  | .ok l => .ok (tmInsert m key (.pairs l))

/-- `MP4Tags.__render_data`: the tag atom wrapping one rendered `data`
sub-atom (`[flags:u32 | 0:u32 | payload]`) per value. -/
def renderDataAtoms (key : List Nat) (flags : Nat) (chunks : List (List Nat)) :
    List Nat :=
  atomRender key
    ((chunks.map (fun d => atomRender dataName (u32BE flags ++ u32BE 0 ++ d))).flatten)

/-- `MP4Tags.__render_pair`: range-check each (track, total) pair and pack it
as `[0:u16 | track:u16 | total:u16 | 0:u16]`; out of range raises
`MP4MetadataValueError`. -/
def renderPairChunks : List (Int × Int) → Except MPErr (List (List Nat))
  | [] => .ok []
  | (a, b) :: rest =>
    if 0 ≤ a ∧ a < 65536 ∧ 0 ≤ b ∧ b < 65536 then
      match renderPairChunks rest with
      | .ok cs => .ok ((u16BE 0 ++ u16BE a.toNat ++ u16BE b.toNat ++ u16BE 0) :: cs)
      | .error e => .error e
    else .error .invalidValue

def renderPair (key : List Nat) (value : List (Int × Int)) : Except MPErr (List Nat) :=
  match renderPairChunks value with
  | .ok cs => .ok (renderDataAtoms key 0 cs)
  | .error e => .error e

/-- The sub-atom loop of `MP4Tags.__parse_cover`: collect (format, payload)
pairs from `data` sub-atoms, clamping an unknown format to JPEG (13); a
`name` sub-atom is skipped; any other sibling raises. -/
def parseCoverLoop : Nat → Nat → List Nat → Except MPErr (List (Nat × List Nat))
  | 0, _, _ => .error .fuelOut
  | fuel + 1, rem, data =>
    if 0 < rem then
      if (data.take 12).length = 12 then
        let length := ru32 data
        let nm := (data.drop 4).take 4
        let fmt := ru32 (data.drop 8)
        if nm = dataName then
          let fmt2 := if fmt = 13 ∨ fmt = 14 then fmt else 13
          match parseCoverLoop fuel (rem - length) (data.drop length) with
          | .ok cs => .ok ((fmt2, (data.drop 16).take (length - 16)) :: cs)
          | .error e => .error e
        else if nm = nameFour then parseCoverLoop fuel (rem - length) (data.drop length)
        else .error .unexpectedAtom
      else .error .structError
    else .ok []

/-- `MP4Tags.__parse_cover`: `self["covr"]` is always assigned (the empty
list when the loop yields no data sub-atoms). -/
def parseCover (m : TagMap) (atomLength : Nat) (data : List Nat) (fuel : Nat) :
    Except MPErr TagMap :=
  match parseCoverLoop fuel (atomLength - 8) data with
  | .ok cs => .ok (tmInsert m covrName (.covers cs))
  | .error e => .error e

theorem parseDataF_step (fuel rem : Nat) (data : List Nat) (hrem : 0 < rem)
    (h12 : (data.take 12).length = 12) (hname : (data.drop 4).take 4 = dataName) :
    parseDataF (fuel + 1) rem data =
      match parseDataF fuel (rem - ru32 data) (data.drop (ru32 data)) with
      | .ok rest => .ok ((ru32 (data.drop 8), (data.drop 16).take (ru32 data - 16)) :: rest)
      | .error e => .error e := by
  simp only [parseDataF]
  rw [if_pos hrem, if_pos h12, if_pos hname]

theorem parseDataF_chunk_cons (f : Nat) (c R : List Nat) (n : Nat)
    (L : List (Nat × List Nat)) (hc8 : c.length = 8)
    (hrec : parseDataF f (24 * n) R = .ok L) :
    parseDataF (f + 1) (24 * (n + 1))
      (0 :: 0 :: 0 :: 24 :: 100 :: 97 :: 116 :: 97 :: 0 :: 0 :: 0 :: 0 :: 0 :: 0 :: 0 :: 0 ::
        (c ++ R)) = .ok ((0, c) :: L) := by
  rw [parseDataF_step f (24 * (n + 1))
    (0 :: 0 :: 0 :: 24 :: 100 :: 97 :: 116 :: 97 :: 0 :: 0 :: 0 :: 0 :: 0 :: 0 :: 0 :: 0 ::
      (c ++ R)) (by omega) rfl rfl]
  have h24 : ru32 (0 :: 0 :: 0 :: 24 :: 100 :: 97 :: 116 :: 97 :: 0 :: 0 :: 0 :: 0 :: 0 ::
      0 :: 0 :: 0 :: (c ++ R)) = 24 := rfl
  rw [h24]
  have hdrop : (0 :: 0 :: 0 :: 24 :: 100 :: 97 :: 116 :: 97 :: 0 :: 0 :: 0 :: 0 :: 0 :: 0 ::
      0 :: 0 :: (c ++ R)).drop 24 = R := by
    show (c ++ R).drop 8 = R
    rw [← hc8, List.drop_left]
  have hrem2 : 24 * (n + 1) - 24 = 24 * n := by
    rw [Nat.mul_succ]
    omega
  rw [hdrop, hrem2, hrec]
  have htake : ((0 :: 0 :: 0 :: 24 :: 100 :: 97 :: 116 :: 97 :: 0 :: 0 :: 0 :: 0 :: 0 :: 0 ::
      0 :: 0 :: (c ++ R)).drop 16).take (24 - 16) = c := by
    show (c ++ R).take 8 = c
    rw [← hc8, List.take_left]
  rw [htake]
  rfl

theorem chunkAtom_explicit (c : List Nat) (hc8 : c.length = 8) :
    atomRender dataName (u32BE 0 ++ u32BE 0 ++ c) =
      0 :: 0 :: 0 :: 24 :: 100 :: 97 :: 116 :: 97 :: 0 :: 0 :: 0 :: 0 :: 0 :: 0 :: 0 :: 0 :: c := by
  have hlen : (u32BE 0 ++ u32BE 0 ++ c).length = 16 := by
    simp only [List.length_append, u32BE_length]
    omega
  simp only [atomRender, hlen]
  rw [if_pos (by norm_num)]
  simp [u32BE, dataName, List.cons_append]

theorem parseDataF_chunks (cs : List (List Nat)) (fuel : Nat)
    (hcs : ∀ c ∈ cs, c.length = 8) (hfuel : cs.length < fuel) :
    parseDataF fuel (24 * cs.length)
      ((cs.map (fun d => atomRender dataName (u32BE 0 ++ u32BE 0 ++ d))).flatten)
      = .ok (cs.map (fun d => ((0 : Nat), d))) := by
  induction cs generalizing fuel with
  | nil =>
    match fuel, hfuel with
    | f + 1, _ => simp [parseDataF]
  | cons c t ih =>
    match fuel, hfuel with
    | f + 1, hf =>
      have hc8 : c.length = 8 := hcs c (by simp)
      have hf2 : t.length < f := by
        simp only [List.length_cons] at hf
        omega
      have hblob : (((c :: t).map
          (fun d => atomRender dataName (u32BE 0 ++ u32BE 0 ++ d))).flatten) =
          0 :: 0 :: 0 :: 24 :: 100 :: 97 :: 116 :: 97 :: 0 :: 0 :: 0 :: 0 :: 0 :: 0 :: 0 ::
            0 :: (c ++ ((t.map
              (fun d => atomRender dataName (u32BE 0 ++ u32BE 0 ++ d))).flatten)) := by
        simp only [List.map_cons, List.flatten_cons]
        rw [chunkAtom_explicit c hc8]
        simp [List.cons_append]
      rw [hblob]
      have hlen : (c :: t).length = t.length + 1 := rfl
      rw [hlen]
      rw [parseDataF_chunk_cons f c _ t.length _ hc8
        (ih f (fun x hx => hcs x (List.mem_cons_of_mem c hx)) hf2)]
      simp

theorem chunkAtoms_flatten_length (cs : List (List Nat))
    (hcs : ∀ c ∈ cs, c.length = 8) :
    ((cs.map (fun d => atomRender dataName (u32BE 0 ++ u32BE 0 ++ d))).flatten).length
      = 24 * cs.length := by
  induction cs with
  | nil => simp
  | cons c t ih =>
    have hc8 : c.length = 8 := hcs c (by simp)
    simp only [List.map_cons, List.flatten_cons, List.length_append]
    rw [chunkAtom_explicit c hc8, ih (fun x hx => hcs x (List.mem_cons_of_mem c hx))]
    simp only [List.length_cons, hc8]
    ring

theorem mapM_map_ok {α β γ : Type} (f : α → β) (h : β → Except MPErr γ) (g : α → γ)
    (L : List α) (hall : ∀ x ∈ L, h (f x) = .ok (g x)) :
    (L.map f).mapM h = .ok (L.map g) := by
  induction L with
  | nil => rfl
  | cons a t ih =>
    rw [List.map_cons, List.mapM_cons, hall a (by simp),
      ih (fun x hx => hall x (List.mem_cons_of_mem a hx))]
    rfl

/-- The pack/unpack round trip on one rendered pair chunk. -/
theorem unpackPair_chunk (a b : Nat) (ha : a < 65536) (hb : b < 65536) :
    unpackPair (0, u16BE 0 ++ u16BE a ++ u16BE b ++ u16BE 0) = .ok (a, b) := by
  have hchunk : (u16BE 0 ++ u16BE a ++ u16BE b ++ u16BE 0 : List Nat) =
      0 :: 0 :: (a / 256 % 256) :: (a % 256) :: (b / 256 % 256) :: (b % 256) :: 0 :: 0 :: [] := by
    simp [u16BE, List.cons_append]
  rw [hchunk]
  show Except.ok (ru16 ((a / 256 % 256) :: (a % 256) :: (b / 256 % 256) :: (b % 256) :: []),
    ru16 ((b / 256 % 256) :: (b % 256) :: [])) = _
  simp only [ru16, Except.ok.injEq, Prod.mk.injEq]
  omega

theorem renderPairChunks_ok (L : List (Int × Int))
    (hL : ∀ p ∈ L, 0 ≤ p.1 ∧ p.1 < 65536 ∧ 0 ≤ p.2 ∧ p.2 < 65536) :
    renderPairChunks L =
      .ok (L.map (fun p => u16BE 0 ++ u16BE p.1.toNat ++ u16BE p.2.toNat ++ u16BE 0)) := by
  induction L with
  | nil => rfl
  | cons q t ih =>
    obtain ⟨a, b⟩ := q
    have hq := hL (a, b) (by simp)
    simp only [renderPairChunks, if_pos hq,
      ih (fun x hx => hL x (List.mem_cons_of_mem (a, b) hx))]
    rfl

theorem renderPairChunks_invalid (L : List (Int × Int))
    (h : ∃ p ∈ L, ¬(0 ≤ p.1 ∧ p.1 < 65536 ∧ 0 ≤ p.2 ∧ p.2 < 65536)) :
    renderPairChunks L = .error .invalidValue := by
  induction L with
  | nil => simp at h
  | cons q t ih =>
    obtain ⟨a, b⟩ := q
    by_cases hq : 0 ≤ a ∧ a < 65536 ∧ 0 ≤ b ∧ b < 65536
    · have ht : ∃ p ∈ t, ¬(0 ≤ p.1 ∧ p.1 < 65536 ∧ 0 ≤ p.2 ∧ p.2 < 65536) := by
        obtain ⟨p, hp, hbad⟩ := h
        rcases List.mem_cons.mp hp with heq | hmem
        · exact absurd (heq ▸ hq) hbad
        · exact ⟨p, hmem, hbad⟩
      simp only [renderPairChunks, if_pos hq, ih ht]
    · simp only [renderPairChunks, if_neg hq]

theorem parsePairList_of_chunks (cs : List (List Nat)) (fuel : Nat)
    (hcs : ∀ c ∈ cs, c.length = 8) (hfuel : cs.length < fuel)
    (res : List (Nat × Nat))
    (hres : (cs.map (fun d => ((0 : Nat), d))).mapM unpackPair = .ok res) :
    parsePairList fuel
      ((((cs.map (fun d => atomRender dataName (u32BE 0 ++ u32BE 0 ++ d))).flatten).length) + 8)
      ((cs.map (fun d => atomRender dataName (u32BE 0 ++ u32BE 0 ++ d))).flatten)
      = .ok res := by
  simp only [parsePairList, Nat.add_sub_cancel]
  rw [chunkAtoms_flatten_length cs hcs, parseDataF_chunks cs fuel hcs hfuel]
  exact hres

/-- C7 (amended): rendering a list of in-range pairs as a `trkn` tag and
parsing the rendered atom yields the same list (each rendered data sub-atom
is the canonical 24-byte form with size field 0x18), and rendering any list
containing an out-of-range component fails with `MP4MetadataValueError`.
The scenario-2 bytes (size field 0x1C) parse to [(3, 10)] but are not what
rendering emits — see the counterexample theorem. -/
theorem renderPair_roundtrip (L : List (Int × Int)) (fuel : Nat)
    (hL : ∀ p ∈ L, 0 ≤ p.1 ∧ p.1 < 65536 ∧ 0 ≤ p.2 ∧ p.2 < 65536)
    (hfuel : L.length < fuel) :
    (∃ payload : List Nat,
      renderPair trknName L = .ok (atomRender trknName payload) ∧
      parsePairList fuel (payload.length + 8) payload =
        .ok (L.map (fun p => (p.1.toNat, p.2.toNat)))) ∧
    (∀ v : List (Int × Int),
      (∃ p ∈ v, ¬(0 ≤ p.1 ∧ p.1 < 65536 ∧ 0 ≤ p.2 ∧ p.2 < 65536)) →
      renderPair trknName v = .error .invalidValue) := by
  constructor
  · have hcs8 : ∀ c ∈ L.map (fun p => u16BE 0 ++ u16BE p.1.toNat ++ u16BE p.2.toNat ++
        u16BE 0), c.length = 8 := by
      intro c hc
      obtain ⟨p, hp, rfl⟩ := List.mem_map.mp hc
      simp [u16BE_length, List.length_append]
    refine ⟨((L.map (fun p => u16BE 0 ++ u16BE p.1.toNat ++ u16BE p.2.toNat ++
        u16BE 0)).map (fun d => atomRender dataName (u32BE 0 ++ u32BE 0 ++ d))).flatten,
      ?_, ?_⟩
    · simp only [renderPair, renderPairChunks_ok L hL]
      rfl
    · refine parsePairList_of_chunks _ fuel hcs8 (by simpa using hfuel) _ ?_
      rw [List.map_map]
      refine mapM_map_ok _ unpackPair (fun p => (p.1.toNat, p.2.toNat)) L ?_
      intro p hp
      obtain ⟨h1, h2, h3, h4⟩ := hL p hp
      exact unpackPair_chunk p.1.toNat p.2.toNat (by omega) (by omega)
  · intro v hv
    simp only [renderPair, renderPairChunks_invalid v hv]

/-- Witness for C7: an out-of-range track number is rejected. -/
theorem renderPair_roundtrip_witness :
    renderPair trknName [((70000 : Int), (1 : Int))] = .error .invalidValue :=
  (renderPair_roundtrip [] 1 (by decide) (by decide)).2 [(70000, 1)]
    ⟨(70000, 1), by decide, by decide⟩

/-- C7 (counterexample): the scenario-2 data sub-atom bytes carry size field
0x1C = 28 but only 24 bytes; they parse to [(3, 10)], while rendering
[(3, 10)] emits the canonical 24-byte data sub-atom with size field 0x18,
so the round trip does not reproduce the scenario bytes exactly. -/
theorem renderPair_scenario2_not_exact :
    parsePairList 2 32
      [0, 0, 0, 28, 100, 97, 116, 97, 0, 0, 0, 0, 0, 0, 0, 0, 0, 0, 0, 3, 0, 10, 0, 0]
      = .ok [(3, 10)] ∧
    renderPair trknName [(3, 10)] =
      .ok (atomRender trknName
        [0, 0, 0, 24, 100, 97, 116, 97, 0, 0, 0, 0, 0, 0, 0, 0, 0, 0, 0, 3, 0, 10, 0, 0]) ∧
    renderPair trknName [(3, 10)] ≠
      .ok (atomRender trknName
        [0, 0, 0, 28, 100, 97, 116, 97, 0, 0, 0, 0, 0, 0, 0, 0, 0, 0, 0, 3, 0, 10, 0, 0]) := by
  decide

/-- C10 (counterexample): a `trkn` atom of length 8 (no data sub-atoms)
binds the key `trkn` to the empty pair list, so `covr` is not the only tag
class that can map to an empty value list after load. -/
theorem parsePair_empty_atom_binds :
    parsePairTag [] trknName 8 [] 1 = .ok [(trknName, TagValue.pairs [])] ∧
    trknName ≠ covrName := by
  decide

/-- C10 (amended): `__parse_cover` always binds `covr` on success — to the
empty cover list when the atom has no data sub-atoms (for example only a
`name` sub-atom) — and `__parse_text` stores no key when no data sub-atom
matches the expected flags; however `covr` is not the only tag class that
can map to an empty list: `__parse_pair` (trkn/disk) binds its key
unconditionally, so an empty trkn atom also maps to []. -/
theorem parseCover_text_empty_behavior :
    (∀ (m : TagMap) (aLen : Nat) (data : List Nat) (fuel : Nat) (m2 : TagMap),
      parseCover m aLen data fuel = .ok m2 → tmContains m2 covrName = true) ∧
    (∀ m : TagMap, parseCover m 24 (atomRender nameFour (List.replicate 8 7)) 2 =
      .ok (tmInsert m covrName (.covers []))) ∧
    (∀ (m : TagMap) (key : List Nat) (aLen : Nat) (data : List Nat)
        (expectedFlags fuel : Nat) (items : List (Nat × List Nat)),
      parseDataF fuel (aLen - 8) data = .ok items →
      items.filter (fun p => p.1 = expectedFlags) = [] →
      parseTextTag m key aLen data expectedFlags fuel = .ok m) ∧
    (∀ m : TagMap, parsePairTag m trknName 8 [] 1 = .ok (tmInsert m trknName (.pairs []))) := by
  refine ⟨?_, ?_, ?_, ?_⟩
  · intro m aLen data fuel m2 h
    cases hp : parseCoverLoop fuel (aLen - 8) data with
    | ok cs =>
      have hm2 : m2 = tmInsert m covrName (.covers cs) := by
        rw [parseCover, hp] at h
        exact (Except.ok.inj h).symm
      rw [hm2]
      exact tmContains_tmInsert m covrName (.covers cs)
    | error e =>
      rw [parseCover, hp] at h
      exact absurd h (by simp)
  · intro m
    rfl
  · intro m key aLen data expectedFlags fuel items h1 h2
    rw [parseTextTag, h1]
    simp [h2]
  · intro m
    rfl

theorem parseCover_text_empty_behavior_witness :
    parseTextTag [] genKey 8 [] 1 1 = .ok [] :=
  parseCover_text_empty_behavior.2.2.1 [] genKey 8 [] 1 1 [] rfl rfl

/-! Stream-info track selection (`MP4Info.__init__`, claim C9). -/

/-- `Atom.__getitem__`: look up a child path, first match per level,
`KeyError` when a segment is missing or the atom is not a container. -/
def atomGet (a : PAtom) : List (List Nat) → Except MPErr PAtom
  | [] => .ok a
  | n :: rest =>
    match a.children with
    | none => .error .keyError
    | some cs =>
      match cs.find? (fun c => c.name = n) with
      | some c => atomGet c rest
      | none => .error .keyError

/-- `Atom.findall(name)` without recursion: the children with the given
name, in order. -/
def findChildren (a : PAtom) (n : List Nat) : List PAtom :=
  match a.children with
  | none => []
  | some cs => cs.filter (fun c => c.name = n)

/-- The `soun` test of `MP4Info.__init__`: bytes [16..20] of the data read
at the `mdia.hdlr` atom's offset. -/
def isSounHdlr (f : List Nat) (hd : PAtom) : Bool :=
  ((readBytesL f hd.offset hd.length).drop 16).take 4 = sounName

/-- The `for trak in ... else: raise` loop of `MP4Info.__init__`: take the
first trak whose `mdia.hdlr` reads `soun`; a missing `mdia.hdlr` propagates
`KeyError`; if no trak matches, `MP4StreamInfoError` ("track has no audio
data"). -/
def findSounLoop (f : List Nat) : List PAtom → Except MPErr PAtom
  | [] => .error .noAudioTrack
  | t :: rest =>
    match atomGet t [mdiaName, hdlrName] with
    | .error e => .error e
    | .ok hd =>
      if isSounHdlr f hd then .ok t
      else findSounLoop f rest

def mp4InfoFindSoun (f : List Nat) (moov : PAtom) : Except MPErr PAtom :=
  findSounLoop f (findChildren moov trakName)

theorem findSounLoop_spec (f : List Nat) (ts : List PAtom)
    (h : ∀ t ∈ ts, ∃ hd, atomGet t [mdiaName, hdlrName] = .ok hd) :
    (findSounLoop f ts = .error .noAudioTrack ↔
      ∀ t ∈ ts, ∀ hd, atomGet t [mdiaName, hdlrName] = .ok hd →
        isSounHdlr f hd = false) ∧
    (∀ t, findSounLoop f ts = .ok t →
      ∃ pre post, ts = pre ++ t :: post ∧
        (∃ hd, atomGet t [mdiaName, hdlrName] = .ok hd ∧ isSounHdlr f hd = true) ∧
        (∀ p ∈ pre, ∀ hd, atomGet p [mdiaName, hdlrName] = .ok hd →
          isSounHdlr f hd = false)) := by
  induction ts with
  | nil =>
    constructor
    · constructor
      · intro _ t ht
        simp at ht
      · intro _
        rfl
    · intro t ht
      simp [findSounLoop] at ht
  | cons t0 ts ih =>
    obtain ⟨hd0, hhd0⟩ := h t0 (by simp)
    have hstep : findSounLoop f (t0 :: ts) =
        if isSounHdlr f hd0 then .ok t0 else findSounLoop f ts := by
      rw [findSounLoop, hhd0]
    have htail := ih (fun x hx => h x (List.mem_cons_of_mem t0 hx))
    by_cases hsoun : isSounHdlr f hd0 = true
    · rw [hstep, if_pos hsoun]
      constructor
      · constructor
        · intro habs
          exact absurd habs (by simp)
        · intro hall
          exact absurd hsoun (by simp [hall t0 (by simp) hd0 hhd0])
      · intro t ht
        have ht0 : t0 = t := Except.ok.inj ht
        subst ht0
        refine ⟨[], ts, rfl, ⟨hd0, hhd0, hsoun⟩, ?_⟩
        intro p hp
        simp at hp
    · have hsoun2 : isSounHdlr f hd0 = false := by
        simpa using hsoun
      rw [hstep, if_neg hsoun]
      constructor
      · constructor
        · intro he t ht hd hhd
          rcases List.mem_cons.mp ht with rfl | hmem
          · have : hd = hd0 := by
              rw [hhd0] at hhd
              exact (Except.ok.inj hhd).symm
            rw [this]
            exact hsoun2
          · exact htail.1.mp he t hmem hd hhd
        · intro hall
          exact htail.1.mpr (fun t hmem hd hhd => hall t (List.mem_cons_of_mem t0 hmem) hd hhd)
      · intro t ht
        obtain ⟨pre, post, heq, hfound, hpre⟩ := htail.2 t ht
        refine ⟨t0 :: pre, post, by rw [heq]; rfl, hfound, ?_⟩
        intro p hp hd hhd
        rcases List.mem_cons.mp hp with rfl | hmem
        · have : hd = hd0 := by
            rw [hhd0] at hhd
            exact (Except.ok.inj hhd).symm
          rw [this]
          exact hsoun2
        · exact hpre p hmem hd hhd

/-- C9: `MP4Info.__init__` selects the first `trak` child of `moov` whose
`mdia.hdlr` atom carries handler type `soun` at bytes [16..20] of the bytes
read at the hdlr atom's offset, and raises `MP4StreamInfoError` ("track has
no audio data") exactly when no trak matches (provided every trak has a
`mdia.hdlr` to look up — a missing one propagates `KeyError` instead). -/
theorem mp4InfoFindSoun_spec (f : List Nat) (moov : PAtom)
    (h : ∀ t ∈ findChildren moov trakName,
      ∃ hd, atomGet t [mdiaName, hdlrName] = .ok hd) :
    (mp4InfoFindSoun f moov = .error .noAudioTrack ↔
      ∀ t ∈ findChildren moov trakName, ∀ hd,
        atomGet t [mdiaName, hdlrName] = .ok hd → isSounHdlr f hd = false) ∧
    (∀ t, mp4InfoFindSoun f moov = .ok t →
      ∃ pre post, findChildren moov trakName = pre ++ t :: post ∧
        (∃ hd, atomGet t [mdiaName, hdlrName] = .ok hd ∧ isSounHdlr f hd = true) ∧
        (∀ p ∈ pre, ∀ hd, atomGet p [mdiaName, hdlrName] = .ok hd →
          isSounHdlr f hd = false)) :=
  findSounLoop_spec f (findChildren moov trakName) h

def c9File : List Nat := List.replicate 16 0 ++ sounName

def c9Hdlr : PAtom := ⟨0, 20, hdlrName, none⟩

def c9Trak : PAtom := ⟨0, 0, trakName, some [⟨0, 0, mdiaName, some [c9Hdlr]⟩]⟩

def c9Moov : PAtom := ⟨0, 0, moovName, some [c9Trak]⟩

/-- Witness for C9: a moov with a single audio trak is not `NoAudioTrack`. -/
theorem mp4InfoFindSoun_spec_witness :
    mp4InfoFindSoun c9File c9Moov ≠ .error .noAudioTrack := by
  intro he
  have hchildren : findChildren c9Moov trakName = [c9Trak] := rfl
  have hmem : c9Trak ∈ findChildren c9Moov trakName := by
    rw [hchildren]
    exact List.mem_singleton.mpr rfl
  have hyp : ∀ t ∈ findChildren c9Moov trakName,
      ∃ hd, atomGet t [mdiaName, hdlrName] = .ok hd := by
    intro t ht
    rw [hchildren] at ht
    rw [List.mem_singleton.mp ht]
    exact ⟨c9Hdlr, rfl⟩
  have hfalse := (mp4InfoFindSoun_spec c9File c9Moov hyp).1.mp he c9Trak hmem c9Hdlr rfl
  have htrue : isSounHdlr c9File c9Hdlr = true := rfl
  rw [hfalse] at htrue
  exact Bool.noConfusion htrue
